import Mathlib

/-!
Verification development for the `gitent` change-tracking engine
(crates `gitent-core`, `gitent-server`, `gitent-cli`).

The Rust sources are shallowly embedded as executable Lean definitions:

* `gitent-core/src/models.rs`   → `Gitent.ChangeType`, `Gitent.Change`,
  `Gitent.Commit`, `Gitent.Session` and their builder functions;
* `gitent-core/src/storage.rs`  → `Gitent.Store` together with the
  statement-level SQLite operations (`create_session`, `create_change`,
  `create_commit`, the lookup functions and `get_uncommitted_changes`);
* `gitent-core/src/diff.rs`     → `Gitent.computeDiff` / `Gitent.formatUnified`;
* `gitent-server/src/watcher.rs`→ `Gitent.shouldIgnore`;
* `gitent-cli/src/commands/rollback.rs` → `Gitent.performRollbackForChange`.

Modelling conventions, used throughout:

* `Uuid` values are represented by their canonical text rendering
  (`Uuid::to_string` is injective, and the store only ever compares the
  rendered strings), so identifiers are plain `String`s.
* `DateTime<Utc>` values are represented by `Nat` instants.  The store
  persists `to_rfc3339` text and SQLite compares that text byte-wise;
  for UTC timestamps rendered by chrono the byte order of the rendered
  text coincides with chronological order, so `ORDER BY timestamp DESC`
  is modelled as sorting the numeric instants in decreasing order.
* `PathBuf` values are represented by their component lists
  (`List String`); `Path::join` is list append and `to_string_lossy`
  of a relative path interleaves the components with "/", exactly as on
  the unix targets the crate supports.
* `Vec<u8>` content blobs are `List Nat` with every entry a byte.
* SQLite runs in its default configuration: `rusqlite::Connection::open`
  never issues `PRAGMA foreign_keys = ON`, so the declared FOREIGN KEY
  clauses in `Storage::initialize` are *not* enforced; the only
  constraints that can reject an INSERT are the declared PRIMARY KEYs.
  Each `conn.execute` call is its own autocommit transaction: a
  statement that fails leaves all previously executed statements
  durable.  Store operations therefore return the (possibly partially
  updated) store next to their `Result`.
-/

namespace Gitent

/-- A content blob (`Vec<u8>`): a list of bytes. -/
abbrev Bytes := List Nat

/-- Path components of a `PathBuf`. -/
abbrev PathC := List String

/-! ### SHA-256 (models the external `sha2` crate used by `Change::hash_content`)

Modelled from the spec: `models.rs` delegates to `sha2::Sha256` — the
FIPS 180-4 SHA-256 function — and hex-encodes the 32-byte digest with
`hex::encode` (lowercase).  The implementation below is the standard
SHA-256 compression over 512-bit blocks, written over `Nat` with
explicit reduction mod 2^32. -/

namespace SHA256

/-- Truncate to a 32-bit word. -/
def w32 (n : Nat) : Nat := n % 4294967296

/-- Rotate the word `x` right by `n` bit positions. -/
def rotr (n x : Nat) : Nat := w32 ((x >>> n) ||| (x <<< (32 - n)))

/-- Logical right shift of a 32-bit word. -/
def shr (n x : Nat) : Nat := x >>> n

def bnot32 (x : Nat) : Nat := 4294967295 - w32 x

def ch (x y z : Nat) : Nat := (x &&& y) ^^^ (bnot32 x &&& z)

def maj (x y z : Nat) : Nat := (x &&& y) ^^^ (x &&& z) ^^^ (y &&& z)

def bigSigma0 (x : Nat) : Nat := rotr 2 x ^^^ rotr 13 x ^^^ rotr 22 x

def bigSigma1 (x : Nat) : Nat := rotr 6 x ^^^ rotr 11 x ^^^ rotr 25 x

def smallSigma0 (x : Nat) : Nat := rotr 7 x ^^^ rotr 18 x ^^^ shr 3 x

def smallSigma1 (x : Nat) : Nat := rotr 17 x ^^^ rotr 19 x ^^^ shr 10 x

/-- The 64 round constants of FIPS 180-4 (decimal). -/
def K : List Nat :=
  [1116352408, 1899447441, 3049323471, 3921009573, 961987163,
   1508970993, 2453635748, 2870763221, 3624381080, 310598401,
   607225278, 1426881987, 1925078388, 2162078206, 2614888103,
   3248222580, 3835390401, 4022224774, 264347078, 604807628,
   770255983, 1249150122, 1555081692, 1996064986, 2554220882,
   2821834349, 2952996808, 3210313671, 3336571891, 3584528711,
   113926993, 338241895, 666307205, 773529912, 1294757372,
   1396182291, 1695183700, 1986661051, 2177026350, 2456956037,
   2730485921, 2820302411, 3259730800, 3345764771, 3516065817,
   3600352804, 4094571909, 275423344, 430227734, 506948616,
   659060556, 883997877, 958139571, 1322822218, 1537002063,
   1747873779, 1955562222, 2024104815, 2227730452, 2361852424,
   2428436474, 2756734187, 3204031479, 3329325298]

/-- The eight initial hash words of FIPS 180-4 (decimal). -/
def H0 : List Nat :=
  [1779033703, 3144134277, 1013904242, 2773480762,
   1359893119, 2600822924, 528734635, 1541459225]

/-- Big-endian bytes of `n`, `k` bytes wide. -/
def beBytes (k n : Nat) : List Nat :=
  (List.range k).map fun i => n >>> (8 * (k - 1 - i)) &&& 255

/-- Pad a message to a multiple of 64 bytes (append `0x80`, zeros, and
the 64-bit big-endian bit length). -/
def pad (msg : List Nat) : List Nat :=
  let len := msg.length
  let zeros := (64 - (len + 9) % 64) % 64
  msg ++ [0x80] ++ List.replicate zeros 0 ++ beBytes 8 (8 * len)

/-- Split into 64-byte blocks. -/
def blocks : List Nat → List (List Nat)
  | [] => []
  | x :: xs => (x :: xs.take 63) :: blocks (xs.drop 63)
termination_by l => l.length
decreasing_by simp [List.length_drop]; omega

/-- Big-endian 32-bit words from a block of bytes. -/
def toWords : List Nat → List Nat
  | b0 :: b1 :: b2 :: b3 :: rest =>
      (((b0 * 256 + b1) * 256 + b2) * 256 + b3) :: toWords rest
  | _ => []

/-- Extend the 16 message-schedule words to 64. -/
def schedule (w : List Nat) : List Nat :=
  (List.range 48).foldl
    (fun w _ =>
      let n := w.length
      w ++ [w32 (smallSigma1 (w.getD (n - 2) 0) + w.getD (n - 7) 0 +
                 smallSigma0 (w.getD (n - 15) 0) + w.getD (n - 16) 0)])
    w

/-- One round of the compression function. -/
def round (st : List Nat) (kw : Nat × Nat) : List Nat :=
  match st with
  | [a, b, c, d, e, f, g, h] =>
      let t1 := w32 (h + bigSigma1 e + ch e f g + kw.1 + kw.2)
      let t2 := w32 (bigSigma0 a + maj a b c)
      [w32 (t1 + t2), a, b, c, w32 (d + t1), e, f, g]
  | st => st

/-- Compress one 64-byte block into the running hash state. -/
def compress (h : List Nat) (block : List Nat) : List Nat :=
  let w := schedule (toWords block)
  let st := (K.zip w).foldl round h
  (h.zip st).map fun p => w32 (p.1 + p.2)

/-- The eight 32-bit digest words of a byte message. -/
def digestWords (msg : List Nat) : List Nat :=
  (blocks (pad msg)).foldl compress H0

def hexDigit (n : Nat) : Char :=
  if n < 10 then Char.ofNat (48 + n) else Char.ofNat (87 + n)

/-- Lowercase hex rendering of a 32-bit word. -/
def hex8 (n : Nat) : List Char :=
  (List.range 8).map fun i => hexDigit (n >>> (28 - 4 * i) &&& 15)

/-- `hex::encode(Sha256::digest(msg))`. -/
def hexDigest (msg : List Nat) : String :=
  String.mk ((digestWords msg).foldr (fun w acc => hex8 w ++ acc) [])

end SHA256

/-- `Change::hash_content` (models.rs:97-102): SHA-256 of the content
bytes, hex encoded. -/
def hashContent (content : Bytes) : String := SHA256.hexDigest content

/-! ### Data model (`gitent-core/src/models.rs`) -/

/-- `ChangeType` (models.rs:8-13). -/
inductive ChangeType
  | Create
  | Modify
  | Delete
  | Rename
deriving DecidableEq, Repr

/-- `ChangeType::as_str` (models.rs:16-23). -/
def ChangeType.asStr : ChangeType → String
  | .Create => "create"
  | .Modify => "modify"
  | .Delete => "delete"
  | .Rename => "rename"

/-- `ChangeType::parse` (models.rs:25-33). -/
def ChangeType.parseStr (s : String) : Option ChangeType :=
  if s = "create" then some .Create
  else if s = "modify" then some .Modify
  else if s = "delete" then some .Delete
  else if s = "rename" then some .Rename
  else none

/-- `Change` (models.rs:37-50).  `id`, `session_id` are rendered Uuids,
`timestamp` a Utc instant, `path`/`old_path` component lists, `metadata`
an association list modelling the `HashMap<String, String>`. -/
structure Change where
  id : String
  timestamp : Nat
  change_type : ChangeType
  path : PathC
  old_path : Option PathC
  content_before : Option Bytes
  content_after : Option Bytes
  content_hash_before : Option String
  content_hash_after : Option String
  agent_id : Option String
  metadata : List (String × String)
  session_id : String
deriving DecidableEq, Repr

/-- `Change::new` (models.rs:53-68).  The engine draws `id` from
`Uuid::new_v4()` and `timestamp` from `Utc::now()`; both are
nondeterministic inputs of the constructor and appear as parameters. -/
def Change.make (id : String) (timestamp : Nat) (change_type : ChangeType)
    (path : PathC) (session_id : String) : Change :=
  { id := id
    timestamp := timestamp
    change_type := change_type
    path := path
    old_path := none
    content_before := none
    content_after := none
    content_hash_before := none
    content_hash_after := none
    agent_id := none
    metadata := []
    session_id := session_id }

/-- `Change::with_content_before` (models.rs:70-74). -/
def Change.withContentBefore (c : Change) (content : Bytes) : Change :=
  { c with content_hash_before := some (hashContent content)
           content_before := some content }

/-- `Change::with_content_after` (models.rs:76-80). -/
def Change.withContentAfter (c : Change) (content : Bytes) : Change :=
  { c with content_hash_after := some (hashContent content)
           content_after := some content }

/-- `Change::with_agent_id` (models.rs:82-85). -/
def Change.withAgentId (c : Change) (agent : String) : Change :=
  { c with agent_id := some agent }

/-- `Change::with_old_path` (models.rs:92-95). -/
def Change.withOldPath (c : Change) (old : PathC) : Change :=
  { c with old_path := some old }

/-- A `Change` as every caller in the repository constructs one
(`api.rs:79-91`, `watcher.rs:90-114`, the tests): `Change::new`
followed by the optional `with_content_before` / `with_content_after` /
`with_agent_id` builder calls, in that order. -/
def Change.build (id : String) (timestamp : Nat) (change_type : ChangeType)
    (path : PathC) (session_id : String)
    (before after : Option Bytes) (agent : Option String) : Change :=
  let c := Change.make id timestamp change_type path session_id
  let c := match before with
    | some b => c.withContentBefore b
    | none => c
  let c := match after with
    | some a => c.withContentAfter a
    | none => c
  match agent with
  | some a => c.withAgentId a
  | none => c

/-- `Commit` (models.rs:106-115). -/
structure Commit where
  id : String
  parent : Option String
  timestamp : Nat
  message : String
  agent_id : String
  changes : List String
  session_id : String
  metadata : List (String × String)
deriving DecidableEq, Repr

/-- `Commit::new` (models.rs:118-129); `id` and `timestamp` are the
engine-supplied `Uuid::new_v4()` / `Utc::now()` values. -/
def Commit.make (id : String) (timestamp : Nat) (message : String)
    (agent_id : String) (changes : List String) (session_id : String) : Commit :=
  { id := id
    parent := none
    timestamp := timestamp
    message := message
    agent_id := agent_id
    changes := changes
    session_id := session_id
    metadata := [] }

/-- `Session` (models.rs:143-150). -/
structure Session where
  id : String
  root_path : PathC
  started : Nat
  ended : Option Nat
  active : Bool
  ignore_patterns : List String
deriving DecidableEq, Repr

/-- `Session::new` (models.rs:153-167): a fresh session is active and
carries the default ignore patterns. -/
def Session.make (id : String) (started : Nat) (root_path : PathC) : Session :=
  { id := id
    root_path := root_path
    started := started
    ended := none
    active := true
    ignore_patterns := [".git", "target", "node_modules", ".gitent"] }

/-! ### Storage layer (`gitent-core/src/storage.rs`)

The SQLite database after `Storage::initialize` is four tables plus the
`commit_changes` membership table.  Rows hold the rendered column
values exactly as the INSERT statements bind them; see the header
comment for how Uuid / timestamp / path text is represented. -/

/-- One row of the `changes` table, as bound by `Storage::create_change`
(storage.rs:161-186).  `change_type` holds the `ChangeType::as_str`
text. -/
structure ChangeRow where
  id : String
  session_id : String
  timestamp : Nat
  change_type : String
  path : PathC
  old_path : Option PathC
  content_before : Option Bytes
  content_after : Option Bytes
  content_hash_before : Option String
  content_hash_after : Option String
  agent_id : Option String
  metadata : List (String × String)
deriving DecidableEq, Repr

/-- The column values `Storage::create_change` binds for a `Change`. -/
def encodeChange (c : Change) : ChangeRow :=
  { id := c.id
    session_id := c.session_id
    timestamp := c.timestamp
    change_type := c.change_type.asStr
    path := c.path
    old_path := c.old_path
    content_before := c.content_before
    content_after := c.content_after
    content_hash_before := c.content_hash_before
    content_hash_after := c.content_hash_after
    agent_id := c.agent_id
    metadata := c.metadata }

/-- `Storage::change_from_row` (storage.rs:318-346).  The source
`unwrap`s the `ChangeType::parse` result; rows written through
`create_change` always parse, so the model surfaces the impossible
failure as `none`. -/
def decodeChange (r : ChangeRow) : Option Change :=
  (ChangeType.parseStr r.change_type).map fun ct =>
    { id := r.id
      timestamp := r.timestamp
      change_type := ct
      path := r.path
      old_path := r.old_path
      content_before := r.content_before
      content_after := r.content_after
      content_hash_before := r.content_hash_before
      content_hash_after := r.content_hash_after
      agent_id := r.agent_id
      metadata := r.metadata
      session_id := r.session_id }

/-- One row of the `commits` table (without its membership rows),
as bound by `Storage::create_commit` (storage.rs:225-237). -/
structure CommitRow where
  id : String
  session_id : String
  parent : Option String
  timestamp : Nat
  message : String
  agent_id : String
  metadata : List (String × String)
deriving DecidableEq, Repr

def encodeCommit (c : Commit) : CommitRow :=
  { id := c.id
    session_id := c.session_id
    parent := c.parent
    timestamp := c.timestamp
    message := c.message
    agent_id := c.agent_id
    metadata := c.metadata }

/-- The database state: the four entity tables and the
`commit_changes` membership table (storage.rs:29-102).  Rows appear in
insertion order. -/
structure Store where
  sessions : List Session
  changes : List ChangeRow
  commits : List CommitRow
  commit_changes : List (String × String)
deriving DecidableEq, Repr

/-- The database right after `Storage::initialize` on a fresh file. -/
def Store.empty : Store :=
  { sessions := [], changes := [], commits := [], commit_changes := [] }

/-- A failure of the underlying SQLite layer (`rusqlite::Error`):
either a constraint violation raised by an INSERT, the
`QueryReturnedNoRows` miss of a `query_row`, or any other database
error (I/O, corruption, …). -/
inductive DbError
  | constraintViolation
  | queryReturnedNoRows
  | other
deriving DecidableEq, Repr

/-- `gitent_core::error::Error` (error.rs:5-42), every variant. -/
inductive GErr
  | Database (e : DbError)
  | Io
  | Serialization
  | ChangeNotFound (id : String)
  | CommitNotFound (id : String)
  | SessionNotFound (id : String)
  | InvalidPath (p : String)
  | RollbackFailed (m : String)
  | DiffFailed (m : String)
  | NoActiveSession
  | SessionAlreadyActive (p : String)
  | InvalidOperation (m : String)
deriving DecidableEq, Repr

/-- `INSERT INTO sessions` — fails on the `id` PRIMARY KEY. -/
def insertSessionRow (st : Store) (s : Session) : Except DbError Store :=
  if st.sessions.any (fun x => x.id = s.id) then .error .constraintViolation
  else .ok { st with sessions := st.sessions ++ [s] }

/-- `Storage::create_session` (storage.rs:105-122): a single INSERT of
the session row; no existing row is touched. -/
def create_session (st : Store) (s : Session) : Except DbError Store :=
  insertSessionRow st s

/-- `SELECT ... FROM sessions WHERE id = ?1` via `query_row`: the first
matching row, or `QueryReturnedNoRows`. -/
def querySessionRow (st : Store) (id : String) : Except DbError Session :=
  match st.sessions.find? (fun s => s.id = id) with
  | some s => .ok s
  | none => .error .queryReturnedNoRows

/-- The error mapping of `Storage::get_session` (storage.rs:124-132):
`.map_err(|_| Error::SessionNotFound(id.to_string()))` applied to the
underlying query result, whatever its failure. -/
def get_session_mapped (q : Except DbError Session) (id : String) :
    Except GErr Session :=
  match q with
  | .ok s => .ok s
  | .error _ => .error (.SessionNotFound id)

def get_session (st : Store) (id : String) : Except GErr Session :=
  get_session_mapped (querySessionRow st id) id

/-- `SELECT ... FROM sessions WHERE active = 1 LIMIT 1`. -/
def queryActiveSessionRow (st : Store) : Except DbError Session :=
  match st.sessions.find? (fun s => s.active) with
  | some s => .ok s
  | none => .error .queryReturnedNoRows

/-- The error mapping of `Storage::get_active_session`
(storage.rs:134-142): every failure becomes `NoActiveSession`. -/
def get_active_session_mapped (q : Except DbError Session) :
    Except GErr Session :=
  match q with
  | .ok s => .ok s
  | .error _ => .error .NoActiveSession

def get_active_session (st : Store) : Except GErr Session :=
  get_active_session_mapped (queryActiveSessionRow st)

/-- `INSERT INTO changes` — fails on the `id` PRIMARY KEY. -/
def insertChangeRow (st : Store) (r : ChangeRow) : Except DbError Store :=
  if st.changes.any (fun x => x.id = r.id) then .error .constraintViolation
  else .ok { st with changes := st.changes ++ [r] }

/-- `Storage::create_change` (storage.rs:161-186): one INSERT of the
encoded row. -/
def create_change (st : Store) (c : Change) : Except DbError Store :=
  insertChangeRow st (encodeChange c)

/-- `SELECT ... FROM changes WHERE id = ?1` via `query_row`. -/
def queryChangeRow (st : Store) (id : String) : Except DbError ChangeRow :=
  match st.changes.find? (fun r => r.id = id) with
  | some r => .ok r
  | none => .error .queryReturnedNoRows

/-- The error mapping of `Storage::get_change` (storage.rs:188-198):
`.map_err(|_| Error::ChangeNotFound(id.to_string()))`.  The row
decoding `unwrap` (see `decodeChange`) cannot fail for rows written by
`create_change`; its impossible branch is folded into the same error. -/
def get_change_mapped (q : Except DbError ChangeRow) (id : String) :
    Except GErr Change :=
  match q with
  | .ok r =>
      match decodeChange r with
      | some c => .ok c
      | none => .error (.ChangeNotFound id)
  | .error _ => .error (.ChangeNotFound id)

def get_change (st : Store) (id : String) : Except GErr Change :=
  get_change_mapped (queryChangeRow st id) id

/-- `Storage::get_uncommitted_changes` (storage.rs:200-219): the rows of
the session whose id appears in no `commit_changes` row, `ORDER BY
timestamp DESC`.  SQLite sorts the rfc3339 text, which for UTC
instants is chronological order (see header); the model sorts the
numeric instants by insertion into a descending list.  The source
finally maps `change_from_row` over the rows; that decoding is the
bijection `decodeChange` and is kept separate so the returned rows stay
literal table rows. -/
def insertDescByTs (r : ChangeRow) : List ChangeRow → List ChangeRow
  | [] => [r]
  | x :: xs =>
      if x.timestamp ≤ r.timestamp then r :: x :: xs
      else x :: insertDescByTs r xs

def sortDescByTs (l : List ChangeRow) : List ChangeRow :=
  l.foldr insertDescByTs []

def uncommittedPred (st : Store) (session_id : String) (r : ChangeRow) : Bool :=
  r.session_id = session_id &&
    !(st.commit_changes.any (fun m => m.2 = r.id))

def get_uncommitted_changes (st : Store) (session_id : String) : List ChangeRow :=
  sortDescByTs (st.changes.filter (uncommittedPred st session_id))

/-- `INSERT INTO commits` — fails on the `id` PRIMARY KEY. -/
def insertCommitRow (st : Store) (r : CommitRow) : Except DbError Store :=
  if st.commits.any (fun x => x.id = r.id) then .error .constraintViolation
  else .ok { st with commits := st.commits ++ [r] }

/-- `INSERT INTO commit_changes` — fails on the composite
`(commit_id, change_id)` PRIMARY KEY.  The FOREIGN KEY clauses are not
enforced (never switched on, see header). -/
def insertMembershipRow (st : Store) (commit_id change_id : String) :
    Except DbError Store :=
  if st.commit_changes.any (fun m => m.1 = commit_id && m.2 = change_id) then
    .error .constraintViolation
  else .ok { st with commit_changes := st.commit_changes ++ [(commit_id, change_id)] }

/-- The membership loop of `Storage::create_commit` (storage.rs:239-244):
one INSERT per referenced change id, stopping at the first failure.
Statements already executed stay durable (autocommit), so the store in
which the failure occurred is returned next to the error. -/
def insertMemberships (st : Store) (commit_id : String) :
    List String → Store × Except DbError Unit
  | [] => (st, .ok ())
  | ch :: rest =>
      match insertMembershipRow st commit_id ch with
      | .error e => (st, .error e)
      | .ok st1 => insertMemberships st1 commit_id rest

/-- `Storage::create_commit` (storage.rs:222-247): the commit-row INSERT
followed by the membership-row INSERTs, each its own autocommit
statement — there is no enclosing transaction. -/
def create_commit (st : Store) (c : Commit) : Store × Except DbError Unit :=
  match insertCommitRow st (encodeCommit c) with
  | .error e => (st, .error e)
  | .ok st1 => insertMemberships st1 c.id c.changes

/-- `Storage::get_changes_for_commit` (storage.rs:371-384): the change
ids of the membership rows of a commit, in row order. -/
def get_changes_for_commit (st : Store) (commit_id : String) : List String :=
  (st.commit_changes.filter (fun m => m.1 = commit_id)).map Prod.snd

/-- `Storage::commit_from_row` (storage.rs:348-369): rebuild the
`Commit` value, with `changes` reloaded from the membership table. -/
def commitFromRow (st : Store) (r : CommitRow) : Commit :=
  { id := r.id
    parent := r.parent
    timestamp := r.timestamp
    message := r.message
    agent_id := r.agent_id
    changes := get_changes_for_commit st r.id
    session_id := r.session_id
    metadata := r.metadata }

/-- `SELECT ... FROM commits WHERE id = ?1` via `query_row`, including
the membership reload performed inside the row mapper. -/
def queryCommit (st : Store) (id : String) : Except DbError Commit :=
  match st.commits.find? (fun r => r.id = id) with
  | some r => .ok (commitFromRow st r)
  | none => .error .queryReturnedNoRows

/-- The error mapping of `Storage::get_commit` (storage.rs:249-261):
`.map_err(|_| Error::CommitNotFound(id.to_string()))`. -/
def get_commit_mapped (q : Except DbError Commit) (id : String) :
    Except GErr Commit :=
  match q with
  | .ok c => .ok c
  | .error _ => .error (.CommitNotFound id)

def get_commit (st : Store) (id : String) : Except GErr Commit :=
  get_commit_mapped (queryCommit st id) id

/-! ### Diff engine (`gitent-core/src/diff.rs`) -/

/-- `similar::ChangeTag` for the three edit classes. -/
inductive ChangeTag
  | del
  | ins
  | eq
deriving DecidableEq, Repr

/-- Modelled from the spec: the external `similar::TextDiff` iterated by
`FileDiff::compute_diff` is "a standard lines-based
longest-common-subsequence-style diff (Myers algorithm class) producing
a minimal edit script" (§4.3).  Equal head lines are matched (always
optimal for an LCS script); otherwise the shorter of the
delete-first / insert-first scripts is taken. -/
def textDiffFuel : Nat → List String → List String → List (ChangeTag × String)
  | 0, _, _ => []
  | _ + 1, [], [] => []
  | fuel + 1, [], y :: ys => (.ins, y) :: textDiffFuel fuel [] ys
  | fuel + 1, x :: xs, [] => (.del, x) :: textDiffFuel fuel xs []
  | fuel + 1, x :: xs, y :: ys =>
      if x = y then (.eq, x) :: textDiffFuel fuel xs ys
      else
        let d := (.del, x) :: textDiffFuel fuel xs (y :: ys)
        let i := (.ins, y) :: textDiffFuel fuel (x :: xs) ys
        if d.length ≤ i.length then d else i

def textDiff (a b : List String) : List (ChangeTag × String) :=
  textDiffFuel (a.length + b.length) a b

/-- `TextDiff::from_lines` splits into lines keeping each terminating
newline (the final fragment without one included when nonempty). -/
def splitKeepAux : List Char → List Char → List String
  | acc, [] => if acc.isEmpty then [] else [String.mk acc.reverse]
  | acc, c :: cs =>
      if c = '\n' then String.mk (c :: acc).reverse :: splitKeepAux [] cs
      else splitKeepAux (c :: acc) cs

def splitKeep (s : String) : List String := splitKeepAux [] s.data

/-- `DiffLineType` (diff.rs:22-26). -/
inductive DiffLineType
  | Context
  | Addition
  | Deletion
deriving DecidableEq, Repr

/-- `DiffLine` (diff.rs:14-19). -/
structure DiffLine where
  line_type : DiffLineType
  content : String
  old_line_number : Option Nat
  new_line_number : Option Nat
deriving DecidableEq, Repr

/-- The numbering loop of `FileDiff::compute_diff` (diff.rs:57-89):
deletions advance only the old counter, insertions only the new one,
equal lines both. -/
def numberLines : List (ChangeTag × String) → Nat → Nat → List DiffLine
  | [], _, _ => []
  | (t, s) :: rest, o, n =>
      match t with
      | .del => ⟨.Deletion, s, some o, none⟩ :: numberLines rest (o + 1) n
      | .ins => ⟨.Addition, s, none, some n⟩ :: numberLines rest o (n + 1)
      | .eq => ⟨.Context, s, some o, some n⟩ :: numberLines rest (o + 1) (n + 1)

/-- `FileDiff::compute_diff` (diff.rs:54-90), line counters starting
at 1. -/
def computeDiff (old_text new_text : String) : List DiffLine :=
  numberLines (textDiff (splitKeep old_text) (splitKeep new_text)) 1 1

/-- The `-` / `+` / ` ` prefixing of a hunk body line
(diff.rs:109-115). -/
def renderLine (l : DiffLine) : String :=
  (match l.line_type with
   | .Addition => "+"
   | .Deletion => "-"
   | .Context => " ") ++ l.content

/-- The `@@ -a,n +b,n @@` header (diff.rs:120-126): `a` / `b` are the
old / new line numbers of `diff_lines[start]` with `unwrap_or(0)`, and
both counts are `hunk_lines.len()`. -/
def hunkHeader (dls : List DiffLine) (start : Nat) (count : Nat) : String :=
  "@@ -" ++ toString (((dls.get? start).bind DiffLine.old_line_number).getD 0) ++
  "," ++ toString count ++
  " +" ++ toString (((dls.get? start).bind DiffLine.new_line_number).getD 0) ++
  "," ++ toString count ++ " @@\n"

/-- The hunk-assembly loop of `FileDiff::format_unified`
(diff.rs:98-133), carried state `(in_hunk, hunk_start, hunk_lines,
output)`; `rest` is the part of `dls` from index `i` on.  A hunk opens
at a non-context line with `hunk_start = i.saturating_sub(c)`, every
line seen while open is pushed, and the hunk closes (emitting header
and body) when `i + c >= dls.len() - 1`. -/
def fuLoop (dls : List DiffLine) (c : Nat) :
    Nat → List DiffLine → Bool → Nat → List String → String → String
  | _, [], _, _, _, out => out
  | i, l :: rest, inHunk, start, hunkLines, out =>
      if l.line_type ≠ DiffLineType.Context ∨ inHunk = true then
        let start' := if inHunk then start else i - c
        let hl := hunkLines ++ [renderLine l]
        if dls.length - 1 ≤ i + c then
          let out' :=
            if hl.isEmpty then out
            else out ++ hunkHeader dls start' hl.length ++ String.join hl
          fuLoop dls c (i + 1) rest false start' [] out'
        else
          fuLoop dls c (i + 1) rest true start' hl out
      else
        fuLoop dls c (i + 1) rest inHunk start hunkLines out

/-- `FileDiff::format_unified` (diff.rs:92-136) for a `FileDiff` whose
`path` rendered as text is `path` and whose `diff_lines` are `dls`. -/
def formatUnified (path : String) (dls : List DiffLine) (c : Nat) : String :=
  "--- " ++ path ++ "\n" ++ "+++ " ++ path ++ "\n" ++
    fuLoop dls c 0 dls false 0 [] ""

/-! ### Event pipeline ignore filter (`gitent-server/src/watcher.rs`) -/

/-- `str::contains(pattern)`: the pattern occurs as a contiguous
substring (every string contains the empty pattern). -/
def charsHaveSub (hay pat : List Char) : Bool :=
  pat.isPrefixOf hay ||
    match hay with
    | [] => false
    | _ :: t => charsHaveSub t pat

def strHasSub (hay pat : String) : Bool := charsHaveSub hay.data pat.data

/-- `Path::strip_prefix(root).unwrap_or(path)` on component lists
(watcher.rs:126): drop the root components when they prefix the path,
otherwise keep the path unchanged. -/
def stripRoot (root p : PathC) : PathC :=
  if root.isPrefixOf p then p.drop root.length else p

/-- The `to_string_lossy` text of a relative path: components joined
with "/". -/
def pathText (p : PathC) : String := String.intercalate "/" p

/-- `FileWatcher::should_ignore` (watcher.rs:125-136): take the path
relative to the session root, render it, and discard when any ignore
pattern occurs in it as a substring. -/
def shouldIgnore (path root : PathC) (ignore_patterns : List String) : Bool :=
  let path_str := pathText (stripRoot root path)
  ignore_patterns.any fun pattern => strHasSub path_str pattern

/-! ### Rollback engine (`gitent-cli/src/commands/rollback.rs`)

The filesystem is modelled as a finite map from absolute paths
(component lists) to file contents.  Directories are not represented:
`std::fs::create_dir_all` is the identity on this abstraction and the
writes of the success path always succeed. -/

/-- A filesystem: an association list from paths to contents. -/
abbrev Fs := List (PathC × Bytes)

def fsLookup (p : PathC) (fs : Fs) : Option Bytes :=
  (fs.find? (fun e => e.1 = p)).map Prod.snd

/-- `Path::exists`. -/
def fsExists (p : PathC) (fs : Fs) : Bool := (fsLookup p fs).isSome

/-- `std::fs::remove_file`. -/
def fsRemove (p : PathC) (fs : Fs) : Fs := fs.filter (fun e => e.1 ≠ p)

/-- `std::fs::write`: create or truncate-and-overwrite. -/
def fsWrite (p : PathC) (b : Bytes) (fs : Fs) : Fs := (p, b) :: fsRemove p fs

/-- `std::fs::rename src dst` (source checked to exist by the caller). -/
def fsRename (src dst : PathC) (fs : Fs) : Fs :=
  match fsLookup src fs with
  | some b => fsWrite dst b (fsRemove src fs)
  | none => fs

/-- `perform_rollback_for_change` (rollback.rs:112-152) on the success
path: the kind-specific restoration policy applied at
`root_path.join(&change.path)`. -/
def performRollbackForChange (change : Change) (root_path : PathC) (fs : Fs) : Fs :=
  let full_path := root_path ++ change.path
  match change.change_type with
  | .Create =>
      if fsExists full_path fs then fsRemove full_path fs else fs
  | .Modify =>
      match change.content_before with
      | some content_before => fsWrite full_path content_before fs
      | none => fs
  | .Delete =>
      match change.content_before with
      | some content_before => fsWrite full_path content_before fs
      | none => fs
  | .Rename =>
      match change.old_path with
      | some old_path =>
          if fsExists full_path fs then
            fsRename full_path (root_path ++ old_path) fs
          else fs
      | none => fs

/-! ### Server session creation (`gitent-server/src/server.rs`) -/

/-- `GitentServer::new` (server.rs:16-32): build a fresh `Session::new`
(always `active = true`) for the workspace root and insert it with
`Storage::create_session`; no existing session row is read or
updated. -/
def serverNew (st : Store) (id : String) (now : Nat) (root_path : PathC) :
    Except DbError Store :=
  create_session st (Session.make id now root_path)

/-! ### Closed-form description of `format_unified`, used for C8.

`formatUnifiedAmended` is written from the amended claim's words (the
behaviour the counterexample below forces): the first non-context line
opens the only multi-line hunk, whose header index sits `contextLines`
back (clamped to 0) and which absorbs every following line — context
included — until the running index is within `contextLines` of the end
of the script; each later non-context line becomes a single-line hunk
of its own, and each header shows the hunk's total body line count on
both sides. -/

/-- Index of the first non-context line. -/
def firstNonCtxIdx : List DiffLine → Option Nat
  | [] => none
  | l :: rest =>
      if l.line_type ≠ DiffLineType.Context then some 0
      else (firstNonCtxIdx rest).map (· + 1)

/-- The single-line hunks of the tail zone: `rest` is the script from
index `i` on, every index already within `contextLines` of the end. -/
def tailHunks (dls : List DiffLine) (c : Nat) : Nat → List DiffLine → String
  | _, [] => ""
  | i, l :: rest =>
      (if l.line_type ≠ DiffLineType.Context then
         hunkHeader dls (i - c) 1 ++ renderLine l
       else "") ++ tailHunks dls c (i + 1) rest

def formatUnifiedAmended (path : String) (dls : List DiffLine) (c : Nat) : String :=
  "--- " ++ path ++ "\n" ++ "+++ " ++ path ++ "\n" ++
    match firstNonCtxIdx dls with
    | none => ""
    | some k =>
        hunkHeader dls (k - c) (max k (dls.length - 1 - c) + 1 - k) ++
        String.join
          (((dls.drop k).take (max k (dls.length - 1 - c) + 1 - k)).map renderLine) ++
        tailHunks dls c (max k (dls.length - 1 - c) + 1)
          (dls.drop (max k (dls.length - 1 - c) + 1))

/-! ### Helper lemmas -/

theorem ChangeType.parseStr_asStr (ct : ChangeType) :
    ChangeType.parseStr ct.asStr = some ct := by
  cases ct <;> rfl

/-- `change_from_row` inverts the column binding of `create_change`. -/
theorem decodeChange_encodeChange (c : Change) :
    decodeChange (encodeChange c) = some c := by
  simp [decodeChange, encodeChange, ChangeType.parseStr_asStr]

theorem str_append_empty (s : String) : s ++ "" = s := by
  apply String.ext
  simp [String.data_append]

theorem str_join_cons (s : String) (l : List String) :
    String.join (s :: l) = s ++ String.join l := by
  apply String.ext
  simp [String.join_eq, String.data_append]

/-- `insertMemberships` touches only the `commit_changes` table. -/
theorem insertMemberships_ignores_other_tables
    (chs : List ChangeRow) (ses : List Session) :
    ∀ (l : List String) (st : Store) (cid : String),
      insertMemberships { st with changes := chs, sessions := ses } cid l =
        ({ (insertMemberships st cid l).1 with changes := chs, sessions := ses },
          (insertMemberships st cid l).2) := by
  intro l
  induction l with
  | nil => intro st cid; rfl
  | cons ch rest ih =>
      intro st cid
      by_cases h : st.commit_changes.any (fun m => m.1 = cid && m.2 = ch) = true
      · simp [insertMemberships, insertMembershipRow, h]
      · simp only [insertMemberships, insertMembershipRow, h]
        simp only [Bool.false_eq_true, if_false, if_neg h]
        exact ih { st with commit_changes := st.commit_changes ++ [(cid, ch)] } cid

/-- The membership loop succeeds exactly when the referenced ids are
pairwise distinct and none of the membership keys is already taken. -/
theorem insertMemberships_ok_iff :
    ∀ (l : List String) (st : Store) (cid : String),
      (insertMemberships st cid l).2 = .ok () ↔
        (l.Nodup ∧ ∀ ch ∈ l, (cid, ch) ∉ st.commit_changes) := by
  intro l
  induction l with
  | nil => intro st cid; simp [insertMemberships]
  | cons ch rest ih =>
      intro st cid
      by_cases h : st.commit_changes.any (fun m => m.1 = cid && m.2 = ch) = true
      · have hmem : (cid, ch) ∈ st.commit_changes := by
          rcases List.any_eq_true.mp h with ⟨m, hm, hp⟩
          simp only [Bool.and_eq_true, decide_eq_true_eq] at hp
          obtain ⟨h1, h2⟩ := hp
          have : m = (cid, ch) := by
            cases m; simp_all
          rw [← this]; exact hm
        simp only [insertMemberships, insertMembershipRow, h, if_true]
        constructor
        · intro hc; cases hc
        · rintro ⟨-, hall⟩
          exact absurd hmem (hall ch (List.mem_cons_self ch rest))
      · have hnmem : (cid, ch) ∉ st.commit_changes := by
          intro hmem
          apply h
          exact List.any_eq_true.mpr ⟨(cid, ch), hmem, by simp⟩
        simp only [insertMemberships, insertMembershipRow, h]
        simp only [Bool.false_eq_true, if_false, if_neg h]
        rw [ih]
        simp only [List.nodup_cons, List.mem_cons]
        constructor
        · rintro ⟨hnd, hall⟩
          refine ⟨⟨?_, hnd⟩, ?_⟩
          · intro hin
            have := hall ch hin
            simp [List.mem_append] at this
          · intro ch' hch'
            rcases hch' with h' | h'
            · subst h'; exact hnmem
            · have := hall ch' h'
              simp only [List.mem_append, not_or] at this
              exact this.1
        · rintro ⟨⟨hne, hnd⟩, hall⟩
          refine ⟨hnd, ?_⟩
          intro ch' hch'
          simp only [List.mem_append, List.mem_singleton, not_or]
          refine ⟨hall ch' (Or.inr hch'), ?_⟩
          intro heq
          apply hne
          have : ch' = ch := by
            have := congrArg Prod.snd heq
            simpa using this
          rw [← this]; exact hch'

/-! ### C1 -/

/-- C1: FALSIFIED — `Storage::create_commit` is not atomic.  Each
INSERT is its own autocommit statement (storage.rs:222-247 opens no
transaction), so when a membership INSERT fails — e.g. the composite
PRIMARY KEY rejects a duplicated change id, reachable through
`POST /commits` with a repeated id (api.rs:130-136 does not
deduplicate) — the operation returns an error while the commit row and
the memberships inserted before the failure stay durable: a commit row
exists without its membership rows.  Evaluated here on the empty store
and a commit referencing `["ch1", "ch1"]`. -/
theorem createCommit_partial_failure_persists :
    create_commit Store.empty (Commit.make "cm1" 5 "m" "agent" ["ch1", "ch1"] "s1") =
      ({ Store.empty with
           commits := [encodeCommit (Commit.make "cm1" 5 "m" "agent" ["ch1", "ch1"] "s1")],
           commit_changes := [("cm1", "ch1")] },
        .error .constraintViolation) ∧
    (create_commit Store.empty
        (Commit.make "cm1" 5 "m" "agent" ["ch1", "ch1"] "s1")).1 ≠ Store.empty ∧
    (Commit.make "cm1" 5 "m" "agent" ["ch1", "ch1"] "s1").changes.length = 2 ∧
    (create_commit Store.empty
        (Commit.make "cm1" 5 "m" "agent" ["ch1", "ch1"] "s1")).1.commit_changes.length = 1 := by
  refine ⟨rfl, ?_, rfl, rfl⟩
  decide

/-! ### C2 -/

/-- C2 counterexample: the active-session invariant does not hold in the
store.  `GitentServer::new` (server.rs:16-32) always inserts a fresh
`Session::new` row with `active = true` and never deactivates the
previous one (`Storage::create_session`, storage.rs:105-122, is a bare
INSERT), so starting the server twice against one database leaves two
rows with `active = true`. -/
theorem secondActiveSession_leaves_two_active_rows :
    ∃ st1 st2 : Store,
      serverNew Store.empty "s1" 1 ["R"] = .ok st1 ∧
      serverNew st1 "s2" 2 ["R"] = .ok st2 ∧
      st2.sessions.countP (fun s => s.active) = 2 := by
  exact ⟨_, _, rfl, rfl, rfl⟩

/-- C2 (amended): at most one `active = true` row is *observable
through `getActiveSession`*: the query `SELECT ... WHERE active = 1
LIMIT 1` (storage.rs:134-142) returns a single active row of the table
whenever any exists, even when several rows carry `active = true`. -/
theorem getActiveSession_observes_single_active_row (st : Store) :
    (∀ s, get_active_session st = .ok s → s.active = true ∧ s ∈ st.sessions) ∧
    ((st.sessions.any (fun s => s.active)) = true →
      ∃ s, get_active_session st = .ok s ∧ s.active = true) := by
  constructor
  · intro s hs
    unfold get_active_session get_active_session_mapped queryActiveSessionRow at hs
    cases hfind : st.sessions.find? (fun s => s.active) with
    | none => rw [hfind] at hs; cases hs
    | some s0 =>
        rw [hfind] at hs
        cases hs
        exact ⟨List.find?_some hfind, List.mem_of_find?_eq_some hfind⟩
  · intro hany
    rcases List.any_eq_true.mp hany with ⟨s0, hmem, hact⟩
    unfold get_active_session get_active_session_mapped queryActiveSessionRow
    cases hfind : st.sessions.find? (fun s => s.active) with
    | none =>
        have := List.find?_eq_none.mp hfind s0 hmem
        simp [hact] at this
    | some s1 =>
        exact ⟨s1, rfl, List.find?_some hfind⟩

/-- Applies the C2 amended theorem at the concrete two-active-row store
produced by the counterexample. -/
theorem getActiveSession_observes_single_active_row_witness :
    (Session.make "s1" 1 ["R"]).active = true ∧
      Session.make "s1" 1 ["R"] ∈
        (Store.mk [Session.make "s1" 1 ["R"], Session.make "s2" 2 ["R"]] [] [] []).sessions :=
  (getActiveSession_observes_single_active_row
      (Store.mk [Session.make "s1" 1 ["R"], Session.make "s2" 2 ["R"]] [] [] [])).1
    (Session.make "s1" 1 ["R"]) rfl

/-! ### C5 -/

/-- C5 counterexample: `Storage::create_commit` accepts a commit whose
referenced change id resolves to nothing.  The FOREIGN KEY clauses are
never enabled (no `PRAGMA foreign_keys = ON` anywhere in the crate), so
with one session and an empty `changes` table the commit referencing
the nonexistent id "ghost" is inserted successfully, and `get_change`
on the resulting store reports the id as not found. -/
theorem createCommit_accepts_dangling_change_ids :
    (create_commit (Store.mk [Session.make "s1" 1 ["R"]] [] [] [])
        (Commit.make "cm1" 7 "m" "agent" ["ghost"] "s1")).2 = .ok () ∧
    get_change
        (create_commit (Store.mk [Session.make "s1" 1 ["R"]] [] [] [])
          (Commit.make "cm1" 7 "m" "agent" ["ghost"] "s1")).1 "ghost" =
      .error (.ChangeNotFound "ghost") := by
  exact ⟨rfl, rfl⟩

/-- C5 (amended): `create_commit` performs no referential validation at
all.  Its success depends only on the `commits` and `commit_changes`
PRIMARY KEYs — commit id fresh, referenced ids pairwise distinct,
membership keys unclaimed — and is completely independent of the
`changes` and `sessions` tables, so referenced change ids need not
exist nor belong to the commit's session. -/
theorem createCommit_validates_nothing (st : Store) (c : Commit) :
    ((create_commit st c).2 = .ok () ↔
       ((¬ ∃ r ∈ st.commits, r.id = c.id) ∧ c.changes.Nodup ∧
         ∀ ch ∈ c.changes, (c.id, ch) ∉ st.commit_changes)) ∧
    (∀ (chs : List ChangeRow) (ses : List Session),
       create_commit { st with changes := chs, sessions := ses } c =
         ({ (create_commit st c).1 with changes := chs, sessions := ses },
           (create_commit st c).2)) := by
  constructor
  · by_cases h : st.commits.any (fun x => x.id = (encodeCommit c).id) = true
    · simp only [create_commit, insertCommitRow, h, if_true]
      constructor
      · intro hc; cases hc
      · rintro ⟨hno, -, -⟩
        rcases List.any_eq_true.mp h with ⟨r, hr, hid⟩
        exact absurd ⟨r, hr, by simpa using hid⟩ hno
    · simp only [create_commit, insertCommitRow, h]
      simp only [Bool.false_eq_true, if_false, if_neg h]
      rw [insertMemberships_ok_iff]
      have hno : ¬ ∃ r ∈ st.commits, r.id = c.id := by
        rintro ⟨r, hr, hid⟩
        exact h (List.any_eq_true.mpr ⟨r, hr, by simpa using hid⟩)
      simp only [hno, not_false_iff, true_and]
  · intro chs ses
    by_cases h : st.commits.any (fun x => x.id = (encodeCommit c).id) = true
    · simp [create_commit, insertCommitRow, h]
    · simp only [create_commit, insertCommitRow, h]
      simp only [Bool.false_eq_true, if_false, if_neg h]
      exact insertMemberships_ignores_other_tables chs ses c.changes
        { st with commits := st.commits ++ [encodeCommit c] } c.id

/-! ### C10 -/

/-- C10: the four lookup operations collapse *every* underlying failure
— `QueryReturnedNoRows` and genuine database errors alike — into their
designated error: `get_session` / `get_change` / `get_commit` into the
not-found variant carrying the looked-up id (`.map_err(|_| ...)`,
storage.rs:124-132, 188-198, 249-261), `get_active_session` into
`NoActiveSession` (storage.rs:134-142).  No other error variant can
escape, and a successful query passes through unchanged. -/
theorem lookup_errors_collapse_to_not_found
    (qs : Except DbError Session) (qr : Except DbError ChangeRow)
    (qc : Except DbError Commit) (id : String) :
    ((∃ s, qs = .ok s ∧ get_session_mapped qs id = .ok s) ∨
       get_session_mapped qs id = .error (.SessionNotFound id)) ∧
    ((∃ ch, get_change_mapped qr id = .ok ch) ∨
       get_change_mapped qr id = .error (.ChangeNotFound id)) ∧
    ((∃ cm, qc = .ok cm ∧ get_commit_mapped qc id = .ok cm) ∨
       get_commit_mapped qc id = .error (.CommitNotFound id)) ∧
    ((∃ s, qs = .ok s ∧ get_active_session_mapped qs = .ok s) ∨
       get_active_session_mapped qs = .error .NoActiveSession) := by
  refine ⟨?_, ?_, ?_, ?_⟩
  · cases qs with
    | ok s => exact Or.inl ⟨s, rfl, rfl⟩
    | error e => exact Or.inr rfl
  · cases qr with
    | ok r =>
        cases hd : decodeChange r with
        | some ch => exact Or.inl ⟨ch, by simp [get_change_mapped, hd]⟩
        | none => exact Or.inr (by simp [get_change_mapped, hd])
    | error e => exact Or.inr rfl
  · cases qc with
    | ok cm => exact Or.inl ⟨cm, rfl, rfl⟩
    | error e => exact Or.inr rfl
  · cases qs with
    | ok s => exact Or.inl ⟨s, rfl, rfl⟩
    | error e => exact Or.inr rfl

/-! ### C9 -/

/-- C9: the ignore filter discards an event path exactly when the text
of the path taken relative to the session root contains one of the
configured patterns as a plain substring (watcher.rs:125-136), and on
the claim's concrete instances with patterns `["target", ".git"]` the
paths `R/target/debug/out` and `R/.git/HEAD` are discarded while
`R/src/main` is retained. -/
theorem shouldIgnore_iff_substring (path root : PathC) (pats : List String)
    (h : root.isPrefixOf path = true) :
    (shouldIgnore path root pats = true ↔
      ∃ pat ∈ pats, strHasSub (pathText (path.drop root.length)) pat = true) ∧
    shouldIgnore ["R", "target", "debug", "out"] ["R"] ["target", ".git"] = true ∧
    shouldIgnore ["R", ".git", "HEAD"] ["R"] ["target", ".git"] = true ∧
    shouldIgnore ["R", "src", "main"] ["R"] ["target", ".git"] = false := by
  refine ⟨?_, by decide, by decide, by decide⟩
  unfold shouldIgnore stripRoot
  rw [if_pos h, List.any_eq_true]

/-- Applies C9's theorem at the `R/target/debug/out` instance,
discharging the root-prefix hypothesis there. -/
theorem shouldIgnore_iff_substring_witness :
    shouldIgnore ["R", "target", "debug", "out"] ["R"] ["target", ".git"] = true :=
  (shouldIgnore_iff_substring ["R", "target", "debug", "out"] ["R"]
      ["target", ".git"] (by decide)).2.1

/-! ### Filesystem lemmas for C6 -/

theorem fsLookup_fsRemove_self (p : PathC) (fs : Fs) :
    fsLookup p (fsRemove p fs) = none := by
  induction fs with
  | nil => rfl
  | cons e t ih =>
      by_cases h : e.1 = p
      · simpa [fsRemove, h] using ih
      · simpa [fsRemove, fsLookup, List.find?, h] using ih

theorem find?_filter_ne (q p : PathC) (l : List (PathC × Bytes)) (h : q ≠ p) :
    List.find? (fun e => e.1 = q) (l.filter (fun e => e.1 ≠ p)) =
      List.find? (fun e => e.1 = q) l := by
  rw [List.find?_filter]
  congr 1
  funext a
  by_cases hq : a.1 = q
  · have hap : ¬ a.1 = p := fun hap => h ((hq.symm.trans hap))
    simp [hq, hap, h]
  · simp [hq]

theorem fsLookup_fsRemove_other (q p : PathC) (fs : Fs) (h : q ≠ p) :
    fsLookup q (fsRemove p fs) = fsLookup q fs := by
  unfold fsLookup fsRemove
  rw [find?_filter_ne q p fs h]

theorem fsLookup_fsWrite_self (p : PathC) (b : Bytes) (fs : Fs) :
    fsLookup p (fsWrite p b fs) = some b := by
  simp [fsWrite, fsLookup, List.find?]

theorem fsLookup_fsWrite_other (q p : PathC) (b : Bytes) (fs : Fs) (h : q ≠ p) :
    fsLookup q (fsWrite p b fs) = fsLookup q fs := by
  have hpq : ¬ (p = q) := fun hq => h hq.symm
  unfold fsWrite fsLookup fsRemove
  rw [List.find?_cons_of_neg _ (by simpa using hpq)]
  exact congrArg (Option.map Prod.snd) (find?_filter_ne q p fs h)

/-! ### C6 -/

/-- C6: the kind-specific execute-mode rollback policy of
`perform_rollback_for_change` (rollback.rs:112-152), stated as
postconditions on the filesystem map at `root_path.join(change.path)`:
Create deletes the file when present (and the path is absent
afterwards); Modify and Delete write `content_before` when captured and
do nothing otherwise; Rename moves the current path back to the stored
previous path when the current path exists and does nothing otherwise.
Untouched paths keep their contents in every case. -/
theorem rollback_kind_policy (change : Change) (root : PathC) (fs : Fs) :
    (change.change_type = .Create →
       fsLookup (root ++ change.path) (performRollbackForChange change root fs) = none ∧
       ∀ q, q ≠ root ++ change.path →
         fsLookup q (performRollbackForChange change root fs) = fsLookup q fs) ∧
    ((change.change_type = .Modify ∨ change.change_type = .Delete) →
       (∀ b, change.content_before = some b →
          fsLookup (root ++ change.path) (performRollbackForChange change root fs) = some b ∧
          ∀ q, q ≠ root ++ change.path →
            fsLookup q (performRollbackForChange change root fs) = fsLookup q fs) ∧
       (change.content_before = none → performRollbackForChange change root fs = fs)) ∧
    (change.change_type = .Rename →
       (∀ op, change.old_path = some op →
          (∀ b, fsLookup (root ++ change.path) fs = some b →
             fsLookup (root ++ op) (performRollbackForChange change root fs) = some b ∧
             (root ++ op ≠ root ++ change.path →
               fsLookup (root ++ change.path) (performRollbackForChange change root fs) = none) ∧
             ∀ q, q ≠ root ++ change.path → q ≠ root ++ op →
               fsLookup q (performRollbackForChange change root fs) = fsLookup q fs) ∧
          (fsLookup (root ++ change.path) fs = none →
             performRollbackForChange change root fs = fs)) ∧
       (change.old_path = none → performRollbackForChange change root fs = fs)) := by
  refine ⟨?_, ?_, ?_⟩
  · intro hct
    simp only [performRollbackForChange, hct]
    by_cases hex : fsExists (root ++ change.path) fs = true
    · simp only [hex, if_true]
      exact ⟨fsLookup_fsRemove_self _ fs,
        fun q hq => fsLookup_fsRemove_other q _ fs hq⟩
    · simp only [Bool.not_eq_true] at hex
      simp only [hex, Bool.false_eq_true, if_false]
      have h2 : fsLookup (root ++ change.path) fs = none := by
        unfold fsExists at hex
        exact Option.not_isSome_iff_eq_none.mp (by simp [hex])
      exact ⟨h2, fun q _ => trivial⟩
  · intro hct
    constructor
    · intro b hb
      rcases hct with hct | hct <;>
        simp only [performRollbackForChange, hct, hb] <;>
        exact ⟨fsLookup_fsWrite_self _ b fs,
          fun q hq => fsLookup_fsWrite_other q _ b fs hq⟩
    · intro hb
      rcases hct with hct | hct <;>
        simp only [performRollbackForChange, hct, hb]
  · intro hct
    constructor
    · intro op hop
      constructor
      · intro b hb
        have hex : fsExists (root ++ change.path) fs = true := by
          unfold fsExists
          simp [hb]
        simp only [performRollbackForChange, hct, hop, hex, if_true]
        unfold fsRename
        simp only [hb]
        refine ⟨fsLookup_fsWrite_self _ b _, ?_, ?_⟩
        · intro hne
          rw [fsLookup_fsWrite_other _ _ b _ (fun h => hne h.symm)]
          exact fsLookup_fsRemove_self _ fs
        · intro q hq hqop
          rw [fsLookup_fsWrite_other q _ b _ hqop]
          exact fsLookup_fsRemove_other q _ fs hq
      · intro hb
        have hex : fsExists (root ++ change.path) fs = false := by
          unfold fsExists
          simp [hb]
        simp only [performRollbackForChange, hct, hop, hex, Bool.false_eq_true, if_false]
    · intro hop
      simp only [performRollbackForChange, hct, hop]

/-- Applies the C6 theorem to the claim's concrete instance: rolling
back a Modify change whose content-before is the bytes of
"Hello\nWorld\n" leaves the file holding exactly those bytes (the
filesystem initially holds the content-after bytes of
"Hello\nRust\nWorld\n"). -/
theorem rollback_kind_policy_witness :
    fsLookup (["R"] ++ ["test.txt"])
        (performRollbackForChange
          (Change.build "c1" 3 .Modify ["test.txt"] "s1"
            (some [72, 101, 108, 108, 111, 10, 87, 111, 114, 108, 100, 10])
            (some [72, 101, 108, 108, 111, 10, 82, 117, 115, 116, 10,
                   87, 111, 114, 108, 100, 10]) none)
          ["R"]
          [(["R", "test.txt"],
            [72, 101, 108, 108, 111, 10, 82, 117, 115, 116, 10,
             87, 111, 114, 108, 100, 10])]) =
      some [72, 101, 108, 108, 111, 10, 87, 111, 114, 108, 100, 10] :=
  (((rollback_kind_policy
      (Change.build "c1" 3 .Modify ["test.txt"] "s1"
        (some [72, 101, 108, 108, 111, 10, 87, 111, 114, 108, 100, 10])
        (some [72, 101, 108, 108, 111, 10, 82, 117, 115, 116, 10,
               87, 111, 114, 108, 100, 10]) none)
      ["R"]
      [(["R", "test.txt"],
        [72, 101, 108, 108, 111, 10, 82, 117, 115, 116, 10,
         87, 111, 114, 108, 100, 10])]).2.1
    (Or.inl rfl)).1
    [72, 101, 108, 108, 111, 10, 87, 111, 114, 108, 100, 10] rfl).1

/-! ### C4 -/

theorem Change.build_id (id : String) (ts : Nat) (ct : ChangeType) (path : PathC)
    (sid : String) (before after : Option Bytes) (agent : Option String) :
    (Change.build id ts ct path sid before after agent).id = id := by
  unfold Change.build
  cases before <;> cases after <;> cases agent <;> rfl

theorem Change.build_content_before (id : String) (ts : Nat) (ct : ChangeType)
    (path : PathC) (sid : String) (before after : Option Bytes) (agent : Option String) :
    (Change.build id ts ct path sid before after agent).content_before = before := by
  unfold Change.build
  cases before <;> cases after <;> cases agent <;> rfl

theorem Change.build_content_after (id : String) (ts : Nat) (ct : ChangeType)
    (path : PathC) (sid : String) (before after : Option Bytes) (agent : Option String) :
    (Change.build id ts ct path sid before after agent).content_after = after := by
  unfold Change.build
  cases before <;> cases after <;> cases agent <;> rfl

theorem Change.build_hash_before (id : String) (ts : Nat) (ct : ChangeType)
    (path : PathC) (sid : String) (before after : Option Bytes) (agent : Option String) :
    (Change.build id ts ct path sid before after agent).content_hash_before =
      before.map hashContent := by
  unfold Change.build
  cases before <;> cases after <;> cases agent <;> rfl

theorem Change.build_hash_after (id : String) (ts : Nat) (ct : ChangeType)
    (path : PathC) (sid : String) (before after : Option Bytes) (agent : Option String) :
    (Change.build id ts ct path sid before after agent).content_hash_after =
      after.map hashContent := by
  unfold Change.build
  cases before <;> cases after <;> cases agent <;> rfl

/-- C4: for every `Change` built the way the callers build one
(`Change::new` plus the optional content/agent builders, api.rs:79-91),
a successful `create_change` followed by `get_change` on the same id
returns a value equal to the original in every field, and whenever
content-before / content-after bytes are attached the corresponding
hash field is present and equals the SHA-256 hex digest recomputed over
the stored bytes (`Change::with_content_before` /
`with_content_after`, models.rs:70-80). -/
theorem createChange_getChange_roundtrip
    (id : String) (ts : Nat) (ct : ChangeType) (path : PathC) (sid : String)
    (before after : Option Bytes) (agent : Option String) (st st' : Store)
    (h : create_change st (Change.build id ts ct path sid before after agent) = .ok st') :
    get_change st' id = .ok (Change.build id ts ct path sid before after agent) ∧
    (∀ b, before = some b →
       (Change.build id ts ct path sid before after agent).content_before = some b ∧
       (Change.build id ts ct path sid before after agent).content_hash_before =
         some (hashContent b)) ∧
    (∀ b, after = some b →
       (Change.build id ts ct path sid before after agent).content_after = some b ∧
       (Change.build id ts ct path sid before after agent).content_hash_after =
         some (hashContent b)) := by
  refine ⟨?_, ?_, ?_⟩
  · unfold create_change insertChangeRow at h
    by_cases hany :
        st.changes.any
          (fun x => x.id = (encodeChange (Change.build id ts ct path sid before after agent)).id) =
          true
    · rw [if_pos hany] at h
      cases h
    · rw [if_neg hany] at h
      cases h
      unfold get_change get_change_mapped queryChangeRow
      have hid : (encodeChange (Change.build id ts ct path sid before after agent)).id = id := by
        simpa [encodeChange] using Change.build_id id ts ct path sid before after agent
      have hnone : st.changes.find? (fun r => r.id = id) = none := by
        rw [List.find?_eq_none]
        intro x hx hpx
        apply hany
        rw [List.any_eq_true]
        refine ⟨x, hx, ?_⟩
        rw [hid]
        exact hpx
      rw [List.find?_append, hnone, Option.or_of_isNone (by simp)]
      rw [List.find?_cons_of_pos _ (by simp [hid])]
      simp [decodeChange_encodeChange]
  · intro b hb
    subst hb
    exact ⟨Change.build_content_before .., by simp [Change.build_hash_before]⟩
  · intro b hb
    subst hb
    exact ⟨Change.build_content_after .., by simp [Change.build_hash_after]⟩

/-- Applies the C4 theorem on the empty store to a Modify change
carrying before-content [120] and after-content [120, 121]. -/
theorem createChange_getChange_roundtrip_witness :
    get_change
        { Store.empty with
            changes := [encodeChange (Change.build "c1" 1 .Modify ["a.txt"] "s1"
              (some [120]) (some [120, 121]) none)] } "c1" =
      .ok (Change.build "c1" 1 .Modify ["a.txt"] "s1" (some [120]) (some [120, 121]) none) :=
  (createChange_getChange_roundtrip "c1" 1 .Modify ["a.txt"] "s1"
      (some [120]) (some [120, 121]) none Store.empty
      { Store.empty with
          changes := [encodeChange (Change.build "c1" 1 .Modify ["a.txt"] "s1"
            (some [120]) (some [120, 121]) none)] } rfl).1

/-! ### C3 -/

theorem insertDescByTs_perm (r : ChangeRow) (l : List ChangeRow) :
    (insertDescByTs r l).Perm (r :: l) := by
  induction l with
  | nil => exact List.Perm.refl _
  | cons x xs ih =>
      unfold insertDescByTs
      by_cases h : x.timestamp ≤ r.timestamp
      · rw [if_pos h]
      · rw [if_neg h]
        exact (ih.cons x).trans (List.Perm.swap r x xs)

theorem sortDescByTs_perm (l : List ChangeRow) : (sortDescByTs l).Perm l := by
  induction l with
  | nil => exact List.Perm.refl _
  | cons x xs ih =>
      exact (insertDescByTs_perm x (sortDescByTs xs)).trans (ih.cons x)

theorem sorted_insertDescByTs (r : ChangeRow) (l : List ChangeRow)
    (h : l.Sorted (fun a b => b.timestamp ≤ a.timestamp)) :
    (insertDescByTs r l).Sorted (fun a b => b.timestamp ≤ a.timestamp) := by
  induction l with
  | nil => simp [insertDescByTs]
  | cons x xs ih =>
      rw [List.sorted_cons] at h
      obtain ⟨hx, hxs⟩ := h
      unfold insertDescByTs
      by_cases hle : x.timestamp ≤ r.timestamp
      · rw [if_pos hle, List.sorted_cons]
        refine ⟨?_, List.sorted_cons.mpr ⟨hx, hxs⟩⟩
        intro y hy
        rcases List.mem_cons.mp hy with hy | hy
        · rw [hy]; exact hle
        · exact le_trans (hx y hy) hle
      · rw [if_neg hle, List.sorted_cons]
        refine ⟨?_, ih hxs⟩
        intro y hy
        have : y = r ∨ y ∈ xs :=
          List.mem_cons.mp ((insertDescByTs_perm r xs).mem_iff.mp hy)
        rcases this with hy | hy
        · rw [hy]; exact Nat.le_of_not_le hle
        · exact hx y hy

theorem sorted_sortDescByTs (l : List ChangeRow) :
    (sortDescByTs l).Sorted (fun a b => b.timestamp ≤ a.timestamp) := by
  induction l with
  | nil => simp [sortDescByTs]
  | cons x xs ih => exact sorted_insertDescByTs x (sortDescByTs xs) ih

theorem mem_get_uncommitted_iff (st : Store) (sid : String) (r : ChangeRow) :
    r ∈ get_uncommitted_changes st sid ↔
      (r ∈ st.changes ∧ r.session_id = sid ∧ ∀ m ∈ st.commit_changes, m.2 ≠ r.id) := by
  unfold get_uncommitted_changes
  rw [(sortDescByTs_perm _).mem_iff, List.mem_filter]
  unfold uncommittedPred
  simp only [Bool.and_eq_true, decide_eq_true_eq, Bool.not_eq_true']
  constructor
  · rintro ⟨hmem, hsid, hany⟩
    refine ⟨hmem, hsid, ?_⟩
    intro m hm heq
    have : (st.commit_changes.any fun m => m.2 = r.id) = true :=
      List.any_eq_true.mpr ⟨m, hm, decide_eq_true heq⟩
    rw [hany] at this
    cases this
  · rintro ⟨hmem, hsid, hall⟩
    refine ⟨hmem, hsid, ?_⟩
    by_contra hne
    rw [Bool.not_eq_false, List.any_eq_true] at hne
    rcases hne with ⟨m, hm, hp⟩
    exact hall m hm (by simpa using hp)

theorem insertMemberships_ok_mem :
    ∀ (l : List String) (st : Store) (cid : String) (st1 : Store),
      insertMemberships st cid l = (st1, .ok ()) →
      (∀ pr ∈ st.commit_changes, pr ∈ st1.commit_changes) ∧
      (∀ ch ∈ l, (cid, ch) ∈ st1.commit_changes) := by
  intro l
  induction l with
  | nil =>
      intro st cid st1 h
      cases h
      exact ⟨fun pr hpr => hpr, by simp⟩
  | cons ch rest ih =>
      intro st cid st1 h
      unfold insertMemberships insertMembershipRow at h
      by_cases hc : st.commit_changes.any (fun m => m.1 = cid && m.2 = ch) = true
      · rw [if_pos hc] at h
        cases h
      · rw [if_neg hc] at h
        obtain ⟨hpres, hall⟩ :=
          ih { st with commit_changes := st.commit_changes ++ [(cid, ch)] } cid st1 h
        refine ⟨?_, ?_⟩
        · intro pr hpr
          exact hpres pr (by simp [hpr])
        · intro ch' hch'
          rcases List.mem_cons.mp hch' with hch' | hch'
          · subst hch'
            exact hpres (cid, ch') (by simp)
          · exact hall ch' hch'

/-- C3: `get_uncommitted_changes` (storage.rs:200-219) returns exactly
the session's change rows whose id appears in no `commit_changes`
membership row, sorted newest-first (`ORDER BY timestamp DESC`), and
immediately after a successful `create_commit` none of the committed
change ids appears in any `get_uncommitted_changes` result. -/
theorem getUncommittedChanges_exact_sorted_excludes_committed
    (st : Store) (sid : String) :
    (get_uncommitted_changes st sid).Perm
        (st.changes.filter (uncommittedPred st sid)) ∧
    (get_uncommitted_changes st sid).Sorted
        (fun a b => b.timestamp ≤ a.timestamp) ∧
    (∀ r, r ∈ get_uncommitted_changes st sid ↔
       (r ∈ st.changes ∧ r.session_id = sid ∧
         ∀ m ∈ st.commit_changes, m.2 ≠ r.id)) ∧
    (∀ (c : Commit) (st1 : Store), create_commit st c = (st1, .ok ()) →
       ∀ chid ∈ c.changes, ∀ r ∈ get_uncommitted_changes st1 sid, r.id ≠ chid) := by
  refine ⟨sortDescByTs_perm _, sorted_sortDescByTs _,
    fun r => mem_get_uncommitted_iff st sid r, ?_⟩
  intro c st1 h chid hchid r hr
  have hmem : (c.id, chid) ∈ st1.commit_changes := by
    unfold create_commit insertCommitRow at h
    by_cases hc : st.commits.any (fun x => x.id = (encodeCommit c).id) = true
    · rw [if_pos hc] at h
      cases h
    · rw [if_neg hc] at h
      exact (insertMemberships_ok_mem c.changes _ c.id st1 h).2 chid hchid
  have hall := ((mem_get_uncommitted_iff st1 sid r).mp hr).2.2
  intro heq
  exact hall (c.id, chid) hmem heq.symm

/-- Applies the C3 theorem to a concrete store: after committing the
only change "c1", the remaining uncommitted row "c2" is not one of the
committed ids. -/
theorem getUncommittedChanges_witness :
    (encodeChange (Change.build "c2" 2 .Modify ["b.txt"] "s1" none none none)).id ≠ "c1" :=
  (getUncommittedChanges_exact_sorted_excludes_committed
      (Store.mk [Session.make "s1" 1 ["R"]]
        [encodeChange (Change.build "c1" 1 .Create ["a.txt"] "s1" none none none),
         encodeChange (Change.build "c2" 2 .Modify ["b.txt"] "s1" none none none)]
        [] [])
      "s1").2.2.2
    (Commit.make "cm" 3 "init" "agent" ["c1"] "s1")
    (Store.mk [Session.make "s1" 1 ["R"]]
      [encodeChange (Change.build "c1" 1 .Create ["a.txt"] "s1" none none none),
       encodeChange (Change.build "c2" 2 .Modify ["b.txt"] "s1" none none none)]
      [encodeCommit (Commit.make "cm" 3 "init" "agent" ["c1"] "s1")] [("cm", "c1")])
    rfl "c1" (by decide)
    (encodeChange (Change.build "c2" 2 .Modify ["b.txt"] "s1" none none none))
    (by decide)

/-! ### C7 -/

theorem textDiffFuel_self (l : List String) :
    ∀ fuel, l.length ≤ fuel →
      textDiffFuel fuel l l = l.map (fun s => (ChangeTag.eq, s)) := by
  induction l with
  | nil => intro fuel _; cases fuel <;> rfl
  | cons x xs ih =>
      intro fuel hf
      cases fuel with
      | zero => cases hf
      | succ f =>
          simp [textDiffFuel, ih f (by simpa [Nat.succ_le_succ_iff] using hf)]

theorem textDiff_self (l : List String) :
    textDiff l l = l.map (fun s => (ChangeTag.eq, s)) := by
  unfold textDiff
  exact textDiffFuel_self l _ (by omega)

theorem numberLines_all_context :
    ∀ (tl : List (ChangeTag × String)) (o n : Nat),
      (∀ t ∈ tl, t.1 = ChangeTag.eq) →
      ∀ dl ∈ numberLines tl o n, dl.line_type = DiffLineType.Context := by
  intro tl
  induction tl with
  | nil => intro o n _ dl hdl; cases hdl
  | cons t rest ih =>
      intro o n h dl hdl
      obtain ⟨tg, s⟩ := t
      have ht : tg = ChangeTag.eq := h (tg, s) (List.mem_cons_self _ _)
      subst ht
      unfold numberLines at hdl
      rcases List.mem_cons.mp hdl with hdl | hdl
      · rw [hdl]
      · exact ih (o + 1) (n + 1) (fun t' ht' => h t' (List.mem_cons_of_mem _ ht')) dl hdl

theorem fuLoop_all_context (dls : List DiffLine) (c : Nat) :
    ∀ (rest : List DiffLine) (i s : Nat) (hl : List String) (out : String),
      (∀ l ∈ rest, l.line_type = DiffLineType.Context) →
      fuLoop dls c i rest false s hl out = out := by
  intro rest
  induction rest with
  | nil => intro i s hl out _; rfl
  | cons l t ih =>
      intro i s hl out h
      have hl0 : l.line_type = DiffLineType.Context := h l (List.mem_cons_self _ _)
      unfold fuLoop
      rw [if_neg (by simp [hl0])]
      exact ih (i + 1) s hl out (fun x hx => h x (List.mem_cons_of_mem _ hx))

/-- C7: diffing any text against itself yields an edit script of
Context lines only (`FileDiff::compute_diff` over the all-equal edit
sequence, diff.rs:54-90), and `format_unified` then emits nothing
beyond the two file-header lines — in particular no `@@` hunk
header. -/
theorem selfDiff_context_only_empty_body (A path : String) (c : Nat) :
    (computeDiff A A).all (fun l => l.line_type == DiffLineType.Context) = true ∧
    formatUnified path (computeDiff A A) c =
      "--- " ++ path ++ "\n" ++ "+++ " ++ path ++ "\n" := by
  have hall : ∀ dl ∈ computeDiff A A, dl.line_type = DiffLineType.Context := by
    unfold computeDiff
    intro dl hdl
    refine numberLines_all_context _ 1 1 ?_ dl hdl
    rw [textDiff_self]
    intro t ht
    rcases List.mem_map.mp ht with ⟨s, _, rfl⟩
    rfl
  constructor
  · rw [List.all_eq_true]
    intro dl hdl
    simp [hall dl hdl]
  · unfold formatUnified
    rw [fuLoop_all_context _ c _ 0 0 [] "" hall, str_append_empty]

/-! ### C8 -/

/-- C8 counterexample: on the minimal edit script for old text
"a\nx\nb\nc\nd\ny\n" against new text "x\nb\nc\nd\n" (delete line 1,
keep four lines, delete the last line) with `contextLines = 1`,
`format_unified` emits `@@ -1,5 +0,5 @@` for the first hunk — the
`+0` start is not a 1-based line of the new sequence and both counts
are the total body length 5 although the hunk holds only 4 new-side
lines — and the hunk absorbs the interior context run " b\n c\n"
instead of closing after one trailing context line; the hunk header
`@@ -1,2 +1,1 @@` that the claim's rendering rules prescribe for the
first hunk never appears.  The second hunk `@@ -5,1 +4,1 @@\n-y\n`
lacks the leading context line " d\n" the claim requires. -/
theorem formatUnified_padding_counts_counterexample :
    formatUnified "f" (computeDiff "a\nx\nb\nc\nd\ny\n" "x\nb\nc\nd\n") 1 =
      "--- f\n+++ f\n@@ -1,5 +0,5 @@\n-a\n x\n b\n c\n d\n@@ -5,1 +4,1 @@\n-y\n" ∧
    strHasSub
        (formatUnified "f" (computeDiff "a\nx\nb\nc\nd\ny\n" "x\nb\nc\nd\n") 1)
        "@@ -1,2 +1,1 @@" = false ∧
    strHasSub
        (formatUnified "f" (computeDiff "a\nx\nb\nc\nd\ny\n" "x\nb\nc\nd\n") 1)
        "+0,5" = true := by
  refine ⟨by decide, by decide, by decide⟩

theorem str_empty_append (s : String) : "" ++ s = s := by
  apply String.ext
  simp [String.data_append]

theorem list_split_at {α : Type} (l : List α) (m : Nat) (h : m < l.length) :
    ∃ l1 x l2, l = l1 ++ x :: l2 ∧ l1.length = m := by
  refine ⟨l.take m, l.get ⟨m, h⟩, l.drop (m + 1), ?_, ?_⟩
  · conv_lhs => rw [← List.take_append_drop m l]
    rw [List.drop_eq_getElem_cons h, List.get_eq_getElem]
  · rw [List.length_take]
    omega

theorem firstNonCtxIdx_none (l : List DiffLine) (h : firstNonCtxIdx l = none) :
    ∀ x ∈ l, x.line_type = DiffLineType.Context := by
  induction l with
  | nil => intro x hx; cases hx
  | cons a rest ih =>
      unfold firstNonCtxIdx at h
      by_cases ha : a.line_type ≠ DiffLineType.Context
      · rw [if_pos ha] at h; cases h
      · rw [if_neg ha] at h
        have ha' : a.line_type = DiffLineType.Context := not_not.mp ha
        intro x hx
        rcases List.mem_cons.mp hx with hx | hx
        · rw [hx]; exact ha'
        · exact ih (Option.map_eq_none'.mp h) x hx

theorem firstNonCtxIdx_some (l : List DiffLine) (k : Nat) (h : firstNonCtxIdx l = some k) :
    ∃ pre lk post, l = pre ++ lk :: post ∧ pre.length = k ∧
      (∀ x ∈ pre, x.line_type = DiffLineType.Context) ∧
      lk.line_type ≠ DiffLineType.Context := by
  induction l generalizing k with
  | nil => cases h
  | cons a rest ih =>
      unfold firstNonCtxIdx at h
      by_cases ha : a.line_type ≠ DiffLineType.Context
      · rw [if_pos ha] at h
        cases h
        exact ⟨[], a, rest, rfl, rfl, by simp, ha⟩
      · rw [if_neg ha] at h
        rcases Option.map_eq_some'.mp h with ⟨k', hk', rfl⟩
        rcases ih k' hk' with ⟨pre, lk, post, hsplit, hlen, hctx, hlk⟩
        have ha' : a.line_type = DiffLineType.Context := not_not.mp ha
        refine ⟨a :: pre, lk, post, by rw [hsplit]; rfl, by simp [hlen], ?_, hlk⟩
        intro x hx
        rcases List.mem_cons.mp hx with hx | hx
        · rw [hx]; exact ha'
        · exact hctx x hx

theorem str_join_singleton (s : String) : String.join [s] = s := by
  rw [str_join_cons, show String.join [] = "" from rfl, str_append_empty]

theorem tailHunks_cons (dls : List DiffLine) (c i : Nat) (l : DiffLine)
    (rest : List DiffLine) :
    tailHunks dls c i (l :: rest) =
      (if l.line_type ≠ DiffLineType.Context then
         hunkHeader dls (i - c) 1 ++ renderLine l
       else "") ++ tailHunks dls c (i + 1) rest := rfl

theorem fuLoop_cons (dls : List DiffLine) (c i : Nat) (l : DiffLine)
    (rest : List DiffLine) (inHunk : Bool) (start : Nat) (hunkLines : List String)
    (out : String) :
    fuLoop dls c i (l :: rest) inHunk start hunkLines out =
      if l.line_type ≠ DiffLineType.Context ∨ inHunk = true then
        let start' := if inHunk then start else i - c
        let hl := hunkLines ++ [renderLine l]
        if dls.length - 1 ≤ i + c then
          let out' :=
            if hl.isEmpty then out
            else out ++ hunkHeader dls start' hl.length ++ String.join hl
          fuLoop dls c (i + 1) rest false start' [] out'
        else
          fuLoop dls c (i + 1) rest true start' hl out
      else
        fuLoop dls c (i + 1) rest inHunk start hunkLines out := rfl

theorem fuLoop_skip_ctx (dls : List DiffLine) (c : Nat) :
    ∀ (pre rest : List DiffLine) (i s : Nat) (hl : List String) (out : String),
      (∀ l ∈ pre, l.line_type = DiffLineType.Context) →
      fuLoop dls c i (pre ++ rest) false s hl out =
        fuLoop dls c (i + pre.length) rest false s hl out := by
  intro pre
  induction pre with
  | nil => intro rest i s hl out _; rfl
  | cons l t ih =>
      intro rest i s hl out h
      have hl0 : l.line_type = DiffLineType.Context := h l (List.mem_cons_self _ _)
      rw [List.cons_append, fuLoop_cons, if_neg (by simp [hl0])]
      rw [ih rest (i + 1) s hl out (fun x hx => h x (List.mem_cons_of_mem _ hx))]
      have hn : i + 1 + t.length = i + (l :: t).length := by
        rw [List.length_cons]
        omega
      rw [hn]

theorem fuLoop_tail (dls : List DiffLine) (c : Nat) :
    ∀ (rest : List DiffLine) (i s : Nat) (out : String),
      dls.length - 1 ≤ i + c →
      fuLoop dls c i rest false s [] out = out ++ tailHunks dls c i rest := by
  intro rest
  induction rest with
  | nil =>
      intro i s out _
      show out = out ++ ""
      rw [str_append_empty]
  | cons l t ih =>
      intro i s out h
      rw [fuLoop_cons, tailHunks_cons]
      by_cases hl0 : l.line_type = DiffLineType.Context
      · rw [if_neg (by simp [hl0]), if_neg (by simp [hl0])]
        rw [ih (i + 1) s out (by omega), str_empty_append]
      · conv_lhs =>
          rw [if_pos (show l.line_type ≠ DiffLineType.Context ∨ false = true from
            Or.inl hl0)]
        conv_rhs => rw [if_pos hl0]
        show (if dls.length - 1 ≤ i + c then
                fuLoop dls c (i + 1) t false (i - c) []
                  (out ++ hunkHeader dls (i - c) 1 ++ String.join [renderLine l])
              else fuLoop dls c (i + 1) t true (i - c) [renderLine l] out) =
          out ++ ((hunkHeader dls (i - c) 1 ++ renderLine l) ++ tailHunks dls c (i + 1) t)
        rw [if_pos h, ih (i + 1) (i - c) _ (by omega), str_join_singleton]
        simp only [String.append_assoc]

theorem fuLoop_open_run (dls : List DiffLine) (c : Nat) :
    ∀ (seg rest : List DiffLine) (i s : Nat) (hl : List String) (out : String),
      i + seg.length + c ≤ dls.length - 1 →
      fuLoop dls c i (seg ++ rest) true s hl out =
        fuLoop dls c (i + seg.length) rest true s (hl ++ seg.map renderLine) out := by
  intro seg
  induction seg with
  | nil =>
      intro rest i s hl out _
      simp
  | cons l t ih =>
      intro rest i s hl out h
      rw [List.cons_append, fuLoop_cons, if_pos (Or.inr rfl)]
      have hnc : ¬ (dls.length - 1 ≤ i + c) := by
        simp only [List.length_cons] at h
        omega
      show (if dls.length - 1 ≤ i + c then
              fuLoop dls c (i + 1) (t ++ rest) false s []
                (if (hl ++ [renderLine l]).isEmpty = true then out
                 else out ++ hunkHeader dls s (hl ++ [renderLine l]).length ++
                   String.join (hl ++ [renderLine l]))
            else fuLoop dls c (i + 1) (t ++ rest) true s (hl ++ [renderLine l]) out) =
        fuLoop dls c (i + (l :: t).length) rest true s
          (hl ++ List.map renderLine (l :: t)) out
      rw [if_neg hnc]
      rw [ih rest (i + 1) s (hl ++ [renderLine l]) out
        (by simp only [List.length_cons] at h; omega)]
      have hn : i + 1 + t.length = i + (l :: t).length := by
        rw [List.length_cons]
        omega
      rw [hn, List.map_cons, List.append_assoc]
      rfl

theorem fuLoop_close_step (dls : List DiffLine) (c : Nat) (l : DiffLine)
    (rest : List DiffLine) (i s : Nat) (hl : List String) (out : String)
    (h : dls.length - 1 ≤ i + c) :
    fuLoop dls c i (l :: rest) true s hl out =
      fuLoop dls c (i + 1) rest false s []
        (out ++ hunkHeader dls s (hl.length + 1) ++
          String.join (hl ++ [renderLine l])) := by
  rw [fuLoop_cons, if_pos (Or.inr rfl)]
  show (if dls.length - 1 ≤ i + c then
          fuLoop dls c (i + 1) rest false s []
            (if (hl ++ [renderLine l]).isEmpty = true then out
             else out ++ hunkHeader dls s (hl ++ [renderLine l]).length ++
               String.join (hl ++ [renderLine l]))
        else fuLoop dls c (i + 1) rest true s (hl ++ [renderLine l]) out) = _
  rw [if_pos h]
  have hne : (hl ++ [renderLine l]).isEmpty = false := by
    cases hl <;> rfl
  rw [hne]
  have hlen : (hl ++ [renderLine l]).length = hl.length + 1 := by
    rw [List.length_append]
    rfl
  simp only [Bool.false_eq_true, if_false, hlen]

theorem fuLoop_two_phase (pre seg post2 : List DiffLine) (lk listar : DiffLine)
    (c : Nat)
    (hctx : ∀ x ∈ pre, x.line_type = DiffLineType.Context)
    (hlk : lk.line_type ≠ DiffLineType.Context)
    (hclose : (pre ++ lk :: (seg ++ listar :: post2)).length - 1 =
        pre.length + 1 + seg.length + c) :
    fuLoop (pre ++ lk :: (seg ++ listar :: post2)) c 0
        (pre ++ lk :: (seg ++ listar :: post2)) false 0 [] "" =
      hunkHeader (pre ++ lk :: (seg ++ listar :: post2)) (pre.length - c)
          (seg.length + 2) ++
        String.join
          (((lk :: (seg ++ listar :: post2)).take (seg.length + 2)).map renderLine) ++
        tailHunks (pre ++ lk :: (seg ++ listar :: post2)) c
          (pre.length + 1 + seg.length + 1) post2 := by
  conv_lhs =>
    rw [fuLoop_skip_ctx (pre ++ lk :: (seg ++ listar :: post2)) c pre
      (lk :: (seg ++ listar :: post2)) 0 0 [] "" hctx]
  rw [Nat.zero_add]
  rw [fuLoop_cons, if_pos (Or.inl hlk)]
  show (if (pre ++ lk :: (seg ++ listar :: post2)).length - 1 ≤ pre.length + c then
          fuLoop (pre ++ lk :: (seg ++ listar :: post2)) c (pre.length + 1)
            (seg ++ listar :: post2) false (pre.length - c) []
            ("" ++ hunkHeader (pre ++ lk :: (seg ++ listar :: post2)) (pre.length - c) 1 ++
              String.join [renderLine lk])
        else
          fuLoop (pre ++ lk :: (seg ++ listar :: post2)) c (pre.length + 1)
            (seg ++ listar :: post2) true (pre.length - c) [renderLine lk] "") = _
  rw [if_neg (by omega)]
  rw [fuLoop_open_run (pre ++ lk :: (seg ++ listar :: post2)) c seg (listar :: post2)
    (pre.length + 1) (pre.length - c) [renderLine lk] "" (by omega)]
  rw [fuLoop_close_step (pre ++ lk :: (seg ++ listar :: post2)) c listar post2
    (pre.length + 1 + seg.length) (pre.length - c)
    ([renderLine lk] ++ List.map renderLine seg) "" (by omega)]
  rw [fuLoop_tail (pre ++ lk :: (seg ++ listar :: post2)) c post2
    (pre.length + 1 + seg.length + 1) (pre.length - c) _ (by omega)]
  rw [str_empty_append]
  have hcount : ([renderLine lk] ++ List.map renderLine seg).length + 1 =
      seg.length + 2 := by
    rw [List.length_append, List.length_map]
    simp
    omega
  rw [hcount]
  have hjoin : (([renderLine lk] ++ List.map renderLine seg) ++ [renderLine listar]) =
      ((lk :: (seg ++ listar :: post2)).take (seg.length + 2)).map renderLine := by
    rw [List.take_succ_cons]
    rw [show seg.length + 1 = seg.length + 1 from rfl]
    rw [show List.take (seg.length + 1) (seg ++ listar :: post2) =
        seg ++ List.take 1 (listar :: post2) from List.take_append 1]
    simp
  rw [hjoin]

/-- C8 (amended): what `format_unified` (diff.rs:92-136) actually
renders, proved as an exact closed form for every edit script and every
`contextLines` value.  With no non-context line the body is empty.
Otherwise the first non-context line (index `k`) opens a hunk whose
header index is `k - contextLines` (clamped at 0) and which — without
emitting any leading context — absorbs every following line, context
included, closing only at `istar = max k (len - 1 - contextLines)`;
each later non-context line is emitted as its own single-line hunk with
header index `i - contextLines`, and remaining context lines are
dropped.  Every header reads `@@ -o,n +m,n @@` where `n` is the hunk's
total body line count on BOTH sides and `o`/`m` are the old/new line
numbers (0 when absent) of the script line at the header index. -/
theorem formatUnified_eq_closed_form (path : String) (dls : List DiffLine) (c : Nat) :
    formatUnified path dls c = formatUnifiedAmended path dls c := by
  unfold formatUnified formatUnifiedAmended
  congr 1
  cases hk : firstNonCtxIdx dls with
  | none =>
      exact fuLoop_all_context dls c dls 0 0 [] "" (firstNonCtxIdx_none dls hk)
  | some k =>
      show fuLoop dls c 0 dls false 0 [] "" =
        hunkHeader dls (k - c) (max k (dls.length - 1 - c) + 1 - k) ++
          String.join
            (((dls.drop k).take (max k (dls.length - 1 - c) + 1 - k)).map renderLine) ++
          tailHunks dls c (max k (dls.length - 1 - c) + 1)
            (dls.drop (max k (dls.length - 1 - c) + 1))
      obtain ⟨pre, lk, post, hsplit, hlen, hctx, hlk⟩ := firstNonCtxIdx_some dls k hk
      subst hsplit
      have hN : (pre ++ lk :: post).length = pre.length + post.length + 1 := by
        simp only [List.length_append, List.length_cons]
        omega
      by_cases hc1 : (pre ++ lk :: post).length - 1 ≤ k + c
      · have histar : max k ((pre ++ lk :: post).length - 1 - c) = k := by omega
        rw [histar, show k + 1 - k = 1 from by omega]
        have hdropk : (pre ++ lk :: post).drop k = lk :: post := by
          rw [← hlen]
          exact List.drop_left pre (lk :: post)
        have hdropk1 : (pre ++ lk :: post).drop (k + 1) = post := by
          have h2 : pre ++ lk :: post = (pre ++ [lk]) ++ post := by simp
          rw [h2, show k + 1 = (pre ++ [lk]).length from by simp [hlen]]
          exact List.drop_left _ _
        rw [hdropk, hdropk1]
        conv_lhs =>
          rw [fuLoop_skip_ctx (pre ++ lk :: post) c pre (lk :: post) 0 0 [] "" hctx]
        rw [Nat.zero_add]
        rw [fuLoop_cons, if_pos (Or.inl hlk)]
        show (if (pre ++ lk :: post).length - 1 ≤ pre.length + c then
                fuLoop (pre ++ lk :: post) c (pre.length + 1) post false (pre.length - c) []
                  ("" ++ hunkHeader (pre ++ lk :: post) (pre.length - c) 1 ++
                    String.join [renderLine lk])
              else fuLoop (pre ++ lk :: post) c (pre.length + 1) post true
                (pre.length - c) [renderLine lk] "") = _
        rw [if_pos (by omega)]
        rw [fuLoop_tail (pre ++ lk :: post) c post (pre.length + 1) (pre.length - c) _
          (by omega)]
        rw [str_empty_append, hlen]
        rfl
      · have hmlt : (pre ++ lk :: post).length - 1 - c - k - 1 < post.length := by omega
        obtain ⟨seg, listar, post2, hpost, hseglen⟩ :=
          list_split_at post ((pre ++ lk :: post).length - 1 - c - k - 1) hmlt
        subst hpost
        have hN2 : (pre ++ lk :: (seg ++ listar :: post2)).length =
            pre.length + seg.length + post2.length + 2 := by
          simp only [List.length_append, List.length_cons]
          omega
        have hclose : (pre ++ lk :: (seg ++ listar :: post2)).length - 1 =
            pre.length + 1 + seg.length + c := by omega
        rw [fuLoop_two_phase pre seg post2 lk listar c hctx hlk hclose]
        have histar : max k ((pre ++ lk :: (seg ++ listar :: post2)).length - 1 - c) =
            pre.length + 1 + seg.length := by omega
        rw [histar]
        have hcnt : pre.length + 1 + seg.length + 1 - k = seg.length + 2 := by omega
        rw [hcnt]
        have hdropk : (pre ++ lk :: (seg ++ listar :: post2)).drop k =
            lk :: (seg ++ listar :: post2) := by
          rw [← hlen]
          exact List.drop_left _ _
        rw [hdropk]
        have hdropistar :
            (pre ++ lk :: (seg ++ listar :: post2)).drop (pre.length + 1 + seg.length + 1) =
              post2 := by
          have hsh : pre ++ lk :: (seg ++ listar :: post2) =
              ((pre ++ lk :: seg) ++ [listar]) ++ post2 := by simp
          rw [hsh, show pre.length + 1 + seg.length + 1 =
              ((pre ++ lk :: seg) ++ [listar]).length from by
            simp only [List.length_append, List.length_cons, List.length_nil]
            omega]
          exact List.drop_left _ _
        rw [hdropistar, hlen]
